import Mathlib

set_option allowUnsafeReducibility true
attribute [local semireducible] Rat.add Rat.mul Rat.inv Rat.div Rat.sub Rat.neg

/-!
Verification of the factor-graph structured model core
(FactorGraphModel.cpp) and the SumOne preprocessor (SumOne.cpp).

The C++ classes are shallowly embedded: SGVector values become Lean
lists, float64 weights become rationals, fatal assertions and REQUIRE
failures become `Option.none`, and the externally supplied collaborators
(factor graph instances, MAP inference) become explicit record fields.
-/

namespace FGM

/-- A factor type: unique integer id, its own weight sub-vector, and the
cardinality vector (domain size per variable the factor touches).
The weight dimension reported by the C++ object is the size of its
weight vector. -/
structure FactorType where
  type_id : Int
  w : List Rat
  card : List Nat
deriving DecidableEq, Repr

/-- Weight dimension of a factor type (CFactorType::get_w_dim returns the
size of the owned weight vector). -/
def FactorType.get_w_dim (ft : FactorType) : Nat := ft.w.length

/-- Modelled from the spec: number of rows of the factor type's energy
table (CTableFactorType::get_num_assignments), the product of the
cardinalities. The class lives outside the sampled sources. -/
def FactorType.get_num_assignments (ft : FactorType) : Nat := ft.card.prod

/-- MAP inference modes (EMAPInferType). -/
inductive EMAPInferType where
  | TREE_MAX_PROD | LOOPY_MAX_PROD | LP_RELAXATION
  | TRWS_MAX_PROD | GEMPLP | GRAPH_CUT
deriving DecidableEq, Repr

/-- State of a CFactorGraphModel: the factor-type registry, the parameter
map (one type id per global weight slot), the global weight cache, and
the configured inference mode. -/
structure CFactorGraphModel where
  factor_types : List FactorType
  w_map : List Int
  w_cache : List Rat
  inf_type : EMAPInferType
deriving DecidableEq, Repr

/-- Modelled from the spec: SGVector::find, the ascending list of indices
of entries equal to x (used by get_params_mapping); the container class
lives outside the sampled sources. -/
def find (v : List Int) (x : Int) : List Nat :=
  match v with
  | [] => []
  | a :: rest =>
      if a = x then 0 :: (find rest x).map (fun i => i + 1)
      else (find rest x).map (fun i => i + 1)

/-- get_params_mapping(ftype_id) = m_w_map.find(ftype_id). -/
def get_params_mapping (m : CFactorGraphModel) (ftype_id : Int) : List Nat :=
  find m.w_map ftype_id

/-- get_dim() returns the size of the parameter map. -/
def get_dim (m : CFactorGraphModel) : Nat := m.w_map.length

/-- Modelled from the spec: SGVector::resize_vector keeps the existing
prefix and zero-fills newly added entries; the container class lives
outside the sampled sources. -/
def resize (v : List Rat) (n : Nat) : List Rat :=
  v.take n ++ List.replicate (n - v.length) 0

/-- The scatter loop of fparams_to_w: cache[idxs[k]] := vals[k]. -/
def scatter (cache : List Rat) (idxs : List Nat) (vals : List Rat) : List Rat :=
  (idxs.zip vals).foldl (fun c p => c.set p.1 p.2) cache

/-- Per-type loop body of fparams_to_w: for each factor type, check the
slot count against the type's weight size (ASSERT), then scatter the
type's weights into the cache. -/
def fparamsLoop : List FactorType → List Int → List Rat → Option (List Rat)
  | [], _, cache => some cache
  | ft :: rest, wmap, cache =>
      let fw_map := find wmap ft.type_id
      if fw_map.length = ft.w.length then
        fparamsLoop rest wmap (scatter cache fw_map ft.w)
      else none

/-- fparams_to_w: resize the cache to the current dimension if needed,
scatter every registered type's weights into it, and check the final
offset assertion (sum of weight dimensions equals cache size).
Returns the new cache together with the updated model. -/
def fparams_to_w (m : CFactorGraphModel) : Option (List Rat × CFactorGraphModel) :=
  match fparamsLoop m.factor_types m.w_map
      (if m.w_cache.length = get_dim m then m.w_cache
       else resize m.w_cache (get_dim m)) with
  | none => none
  | some c =>
      if (m.factor_types.map FactorType.get_w_dim).sum = c.length
      then some (c, { m with w_cache := c })
      else none

/-- The gather loop of w_to_fparams: fw[wi] = cache[fw_map[wi]] for
wi < w_dim. -/
def gatherFW (cache : List Rat) (fw_map : List Nat) (wdim : Nat) : List Rat :=
  (List.range wdim).map (fun wi => cache.getD (fw_map.getD wi 0) 0)

/-- Per-type loop of w_to_fparams: gather each type's block from the new
cache and push it into the type (set_w). -/
def wtofLoop : List FactorType → List Int → List Rat → List FactorType
  | [], _, _ => []
  | ft :: rest, wmap, cache =>
      { ft with w := gatherFW cache (find wmap ft.type_id) ft.w.length }
        :: wtofLoop rest wmap cache

/-- w_to_fparams: no-op if w equals the cache element-wise; otherwise
assert the length matches, copy w into the cache and distribute it into
every factor type's own weights; finally check the offset assertion. -/
def w_to_fparams (m : CFactorGraphModel) (w : List Rat) : Option CFactorGraphModel :=
  if m.w_cache = w then some m
  else if w.length = m.w_cache.length then
    if (m.factor_types.map FactorType.get_w_dim).sum = w.length
    then some { m with w_cache := w,
                       factor_types := wtofLoop m.factor_types m.w_map w }
    else none
  else none

/-- add_factor_type: REQUIRE a positive weight dimension; warn and return
unchanged on a duplicate id; otherwise append w_dim copies of the id to
the parameter map, push the type, and rebuild the cache via
fparams_to_w. -/
def add_factor_type (m : CFactorGraphModel) (ft : FactorType) : Option CFactorGraphModel :=
  if ft.get_w_dim = 0 then none
  else if m.factor_types.any (fun f => f.type_id == ft.type_id) then some m
  else
    match fparams_to_w
        { m with factor_types := m.factor_types ++ [ft],
                 w_map := m.w_map ++ List.replicate ft.get_w_dim ft.type_id } with
    | none => none
    | some p => some p.2

/-- Scan of del_factor_type: remove the first registered type with the
given id, returning its weight dimension and the remaining registry. -/
def removeFirst : List FactorType → Int → Option (Nat × List FactorType)
  | [], _ => none
  | ft :: rest, id =>
      if ft.type_id = id then some (ft.get_w_dim, rest)
      else (removeFirst rest id).map (fun p => (p.1, ft :: p.2))

/-- del_factor_type: delete the first matching type (ASSERT that one with
nonzero weight dimension was found), rebuild the parameter map by
dropping the slots owned by that id, and check the length assertion.
The weight cache is not touched. -/
def del_factor_type (m : CFactorGraphModel) (ftype_id : Int) : Option CFactorGraphModel :=
  match removeFirst m.factor_types ftype_id with
  | none => none
  | some (wdim, rest) =>
      if wdim = 0 then none
      else
        if (m.w_map.filter (fun s => ¬ s == ftype_id)).length = m.w_map.length - wdim
        then some { m with factor_types := rest,
                           w_map := m.w_map.filter (fun s => ¬ s == ftype_id) }
        else none

/-- A ground-truth or predicted labelling (CFactorGraphObservation):
per-variable discrete states plus per-variable loss weights. The class
lives outside the sampled sources; only its two accessors are used. -/
structure FactorGraphObservation where
  states : List Int
  loss_weights : List Rat
deriving DecidableEq, Repr

/-- An instantiated factor: its factor type, local data values and the
indices of the variables it touches (get_variables; named var_index here
because the source name is reserved in Lean). -/
structure Factor where
  ftype : FactorType
  data : List Rat
  var_index : List Nat
deriving DecidableEq, Repr

/-- Cumulative products of cardinalities: [1, c0, c0*c1, ...]. -/
def cumprod : List Nat → List Nat
  | [] => [1]
  | c :: cs => 1 :: (cumprod cs).map (fun p => c * p)

/-- Modelled from the spec: CTableFactorType::index_from_universe_assignment,
the mixed-radix table index of the assignment restricted to the factor's
variables; the class lives outside the sampled sources. -/
def FactorType.index_from_universe_assignment
    (ft : FactorType) (states : List Int) (vars : List Nat) : Nat :=
  ((List.range vars.length).map
    (fun k => (cumprod ft.card).getD k 0 * (states.getD (vars.getD k 0) 0).toNat)).sum

/-- Accumulation step of get_joint_feature_vector:
psi[w_map[ei*dat_size + di]] += dat[di] for di < dat_size. -/
def addAt (psi : List Rat) (slots : List Nat) (ei : Nat) (dat : List Rat) : List Rat :=
  (List.range dat.length).foldl
    (fun p di =>
      let s := slots.getD (ei * dat.length + di) 0
      p.set s (p.getD s 0 + dat.getD di 0)) psi

/-- Per-factor loop of get_joint_feature_vector, carrying the two
assertions (slot count = type weight dimension, and slot count =
data size times number of assignments). -/
def gjfvLoop : List Factor → List Int → List Int → List Rat → Option (List Rat)
  | [], _, _, psi => some psi
  | fac :: rest, wmap, states, psi =>
      let slots := find wmap fac.ftype.type_id
      if slots.length = fac.ftype.get_w_dim then
        if slots.length = fac.data.length * fac.ftype.get_num_assignments then
          let ei := fac.ftype.index_from_universe_assignment states fac.var_index
          gjfvLoop rest wmap states (addAt psi slots ei fac.data)
        else none
      else none

/-- The per-example structure instance together with its external
collaborator behaviour. Modelled from the spec: CFactorGraph and
CMAPInference are external black boxes; energy b y is evaluate_energy(y)
in the plain (b = false) or loss-augmented (b = true) energy tables, and
infer_map b the assignment found by MAP inference in that table. -/
structure FactorGraphInst where
  factors : List Factor
  is_tree : Bool
  energy : Bool → List Int → Rat
  infer_map : Bool → List Int

/-- get_joint_feature_vector: zero vector of length get_dim, accumulate
every factor's data at its slot range, then negate. -/
def get_joint_feature_vector
    (m : CFactorGraphModel) (fg : FactorGraphInst) (states : List Int) :
    Option (List Rat) :=
  let psi0 : List Rat := List.replicate (get_dim m) 0
  (gjfvLoop fg.factors m.w_map states psi0).map (fun p => p.map (fun x => -x))

/-- Loop body of delta_loss: walk the two state sequences, adding the
truth's per-position loss weight wherever the prediction differs. -/
def dlSum : List Int → List Int → List Rat → Rat
  | sp :: ps, st :: ts, ws =>
      (if sp = st then 0 else ws.headD 0) + dlSum ps ts ws.tail
  | _, _, _ => 0

/-- delta_loss(y1, y2): ASSERT the state sequences have equal length,
then sum the truth's loss weights over differing positions. -/
def delta_loss (y1 y2 : FactorGraphObservation) : Option Rat :=
  if y2.states.length = y1.states.length
  then some (dlSum y2.states y1.states y1.loss_weights)
  else none

/-- The result bundle of an argmax call (CResultSet). -/
structure CResultSet where
  argmax_states : List Int
  psi_truth : List Rat
  psi_pred : List Rat
  score : Rat
  delta : Rat
deriving DecidableEq, Repr

/-- Observable events of one argmax call on the structure instance, in
order of occurrence, used to state the temporal claims. -/
inductive Ev where
  | connectEv
  | computeEnergiesEv
  | psiTruthEv
  | evalEnergyEv (s : List Int)
  | lossAugEv
  | inferenceEv
  | psiPredEv
deriving DecidableEq, Repr

/-- argmax(w, feat_idx, training): fetch the sample and ground truth,
check the tree requirement, distribute w, compute energies, psi_truth
and the ground-truth energy, optionally loss-augment, run MAP inference,
then assemble the ResultSet with score = E(y_truth) - E_after(y_star)
and delta = delta_loss(y_truth, y_star). Also returns the updated model
and the trace of collaborator events. -/
def argmax (m : CFactorGraphModel) (features : List FactorGraphInst)
    (labels : List FactorGraphObservation) (w : List Rat)
    (feat_idx : Nat) (training : Bool) :
    Option (CResultSet × CFactorGraphModel × List Ev) :=
  match features.get? feat_idx with
  | none => none
  | some fg =>
    if m.inf_type = EMAPInferType.TREE_MAX_PROD ∧ fg.is_tree = false then none
    else
      match w_to_fparams m w with
      | none => none
      | some m1 =>
        match labels.get? feat_idx with
        | none => none
        | some y_truth =>
          match get_joint_feature_vector m1 fg y_truth.states with
          | none => none
          | some psi_t =>
            let energy_gt := fg.energy false y_truth.states
            let y_star := fg.infer_map training
            match get_joint_feature_vector m1 fg y_star with
            | none => none
            | some psi_p =>
              let l_energy_pred := fg.energy training y_star
              match delta_loss y_truth
                  ⟨y_star, List.replicate y_star.length 1⟩ with
              | none => none
              | some d =>
                some (⟨y_star, psi_t, psi_p, energy_gt - l_energy_pred, d⟩, m1,
                  [Ev.connectEv, Ev.computeEnergiesEv, Ev.psiTruthEv,
                   Ev.evalEnergyEv y_truth.states]
                  ++ (if training then [Ev.lossAugEv] else [])
                  ++ [Ev.inferenceEv, Ev.psiPredEv, Ev.evalEnergyEv y_star])

/-- Extended value domain for the box bounds of init_primal_opt
(float64 with plus or minus CMath::INFTY). -/
inductive XR where
  | ninf
  | fin (q : Rat)
  | pinf
deriving DecidableEq, Repr

/-- SGMatrix::create_identity_matrix(size, scale), as rows. -/
def identityMat (n : Nat) (r : Rat) : List (List Rat) :=
  (List.range n).map (fun i => (List.range n).map (fun j => if i = j then r else 0))

/-- GRAPH_CUT loop of init_primal_opt: for every factor type with
cardinality vector [2,2], REQUIRE w_dim = 4 and ASSERT the slot count,
then pin slots 0 and 3 (lb = ub = 0) and lower-bound slots 1 and 2. -/
def ipoLoop : List FactorType → List Int → List XR → List XR → Option (List XR × List XR)
  | [], _, lb, ub => some (lb, ub)
  | ft :: rest, wmap, lb, ub =>
      if ft.card = [2, 2] then
        if ft.get_w_dim = 4 then
          let fm := find wmap ft.type_id
          if fm.length = ft.w.length then
            let lb1 := (((lb.set (fm.getD 0 0) (XR.fin 0)).set
                (fm.getD 3 0) (XR.fin 0)).set
                (fm.getD 1 0) (XR.fin 0)).set (fm.getD 2 0) (XR.fin 0)
            let ub1 := (ub.set (fm.getD 0 0) (XR.fin 0)).set (fm.getD 3 0) (XR.fin 0)
            ipoLoop rest wmap lb1 ub1
          else none
        else none
      else ipoLoop rest wmap lb ub

/-- init_primal_opt: C is the identity scaled by the regularization.
Under GRAPH_CUT the bounds are resized to the dimension, filled with
minus/plus infinity and constrained per pairwise binary factor type;
under every other mode lb and ub are returned as passed in. -/
def init_primal_opt (m : CFactorGraphModel) (regularization : Rat)
    (lb ub : List XR) : Option (List (List Rat) × List XR × List XR) :=
  let C := identityMat (get_dim m) regularization
  match m.inf_type with
  | EMAPInferType.GRAPH_CUT =>
      let lb0 : List XR := List.replicate (get_dim m) XR.ninf
      let ub0 : List XR := List.replicate (get_dim m) XR.pinf
      (ipoLoop m.factor_types m.w_map lb0 ub0).map (fun p => (C, p.1, p.2))
  | _ => some (C, lb, ub)

/-- Structural well-formedness of a model state, as established by the
registration API: distinct type ids, slot counts matching each type's
weight size, cache length equal to the map length, and total weight
dimension equal to the map length. -/
def Consistent (m : CFactorGraphModel) : Prop :=
  (m.factor_types.map FactorType.type_id).Nodup ∧
  (∀ ft ∈ m.factor_types, (find m.w_map ft.type_id).length = ft.w.length) ∧
  m.w_cache.length = m.w_map.length ∧
  (m.factor_types.map FactorType.get_w_dim).sum = m.w_map.length

instance (m : CFactorGraphModel) : Decidable (Consistent m) := by
  unfold Consistent; infer_instance

/-- The weight cache agrees with every registered type's own weights at
that type's slots (maintained by add_factor_type and w_to_fparams). -/
def Synced (m : CFactorGraphModel) : Prop :=
  ∀ ft ∈ m.factor_types, ∀ k, k < ft.w.length →
    ft.w.getD k 0 = m.w_cache.getD ((find m.w_map ft.type_id).getD k 0) 0

instance (m : CFactorGraphModel) : Decidable (Synced m) := by
  unfold Synced; infer_instance

end FGM

namespace CSumOne

/-- CSumOne::apply_to_feature_vector: allocate a fresh vector of the same
length whose entries are the input entries divided by the input's sum.
The sum is not checked for zero (rational division by zero yields 0 here,
where IEEE float division yields an infinity or NaN). -/
def apply_to_feature_vector (vector : List Rat) : List Rat :=
  let sum := vector.sum
  vector.map (fun x => x / sum)

end CSumOne

namespace FGM

/-- Rational-valued Hamming distance between two state sequences:
number of positions (up to the shorter length) where they differ. -/
def hamming : List Int → List Int → Rat
  | a :: as, b :: bs => (if a = b then 0 else 1) + hamming as bs
  | _, _ => 0

/-- A fresh model with TREE_MAX_PROD inference and empty registry. -/
def mEmpty : CFactorGraphModel := ⟨[], [], [], EMAPInferType.TREE_MAX_PROD⟩

/-- Factor type A of the registry scenario: id 1, weights [0.5, -0.5]. -/
def ftA : FactorType := ⟨1, [1/2, -1/2], [2]⟩

/-- Factor type B of the registry scenario: id 2, weights [1, 1, 1]. -/
def ftB : FactorType := ⟨2, [1, 1, 1], [3]⟩

/-- A factor type with id 1 and a single weight 0.5. -/
def ftC : FactorType := ⟨1, [1/2], [2]⟩

/-- The model after registering ftA in mEmpty. -/
def mA : CFactorGraphModel :=
  ⟨[ftA], [1, 1], [1/2, -1/2], EMAPInferType.TREE_MAX_PROD⟩

/-- The model after registering ftA then ftB. -/
def mAB : CFactorGraphModel :=
  ⟨[ftA, ftB], [1, 1, 2, 2, 2], [1/2, -1/2, 1, 1, 1], EMAPInferType.TREE_MAX_PROD⟩

/-- The model after removing type 1 from mAB: the parameter map is
rebuilt but the weight cache is left as it was. -/
def mB2 : CFactorGraphModel :=
  ⟨[ftB], [2, 2, 2], [1/2, -1/2, 1, 1, 1], EMAPInferType.TREE_MAX_PROD⟩

/-- The model after registering ftC in mEmpty. -/
def mEx : CFactorGraphModel := ⟨[ftC], [1], [1/2], EMAPInferType.TREE_MAX_PROD⟩

/-- The model after removing type 1 from mEx: empty registry and map,
but the one-slot weight cache survives. -/
def mDel : CFactorGraphModel := ⟨[], [], [1/2], EMAPInferType.TREE_MAX_PROD⟩

/-- Factor type of the joint-feature scenario: w_dim 4, one binary
variable, two table rows. -/
def ft7 : FactorType := ⟨7, [0, 0, 0, 0], [2]⟩

/-- Model owning ft7 with all four global slots mapped to id 7. -/
def m7 : CFactorGraphModel :=
  ⟨[ft7], [7, 7, 7, 7], [0, 0, 0, 0], EMAPInferType.TREE_MAX_PROD⟩

/-- Single-factor graph for the joint-feature scenario: data [1, 1] on
variable 0. -/
def fg7 : FactorGraphInst := ⟨[⟨ft7, [1, 1], [0]⟩], true, fun _ _ => 0, fun _ => []⟩

/-- The same graph with truncated data [1]: slot count 4 no longer equals
data size times number of assignments. -/
def fg7bad : FactorGraphInst := ⟨[⟨ft7, [1], [0]⟩], true, fun _ _ => 0, fun _ => []⟩

/-- An empty structure instance (no factors, tree, zero energies). -/
def fgE : FactorGraphInst := ⟨[], true, fun _ _ => 0, fun _ => []⟩

/-- The empty observation. -/
def yE : FactorGraphObservation := ⟨[], []⟩

/-- Pairwise binary factor type for the constraint scenario. -/
def ftP : FactorType := ⟨9, [1, 2, 3, 4], [2, 2]⟩

/-- GRAPH_CUT model owning ftP on slots 0..3. -/
def mP : CFactorGraphModel :=
  ⟨[ftP], [9, 9, 9, 9], [1, 2, 3, 4], EMAPInferType.GRAPH_CUT⟩

/-- mEmpty switched to GRAPH_CUT mode. -/
def mEmptyGC : CFactorGraphModel := ⟨[], [], [], EMAPInferType.GRAPH_CUT⟩

section Lemmas

/-- Writing back the value already stored at a position is a no-op. -/
theorem set_getD_self {α : Type} (l : List α) (i : Nat) (d : α) :
    l.set i (l.getD i d) = l := by
  induction l generalizing i with
  | nil => rfl
  | cons a t ih =>
    cases i with
    | zero => rfl
    | succ n => simpa [List.set] using ih n

/-- getD after set at the written position. -/
theorem getD_set_self {α : Type} (l : List α) (i : Nat) (v d : α)
    (h : i < l.length) :
    (l.set i v).getD i d = v := by
  induction l generalizing i with
  | nil => simp at h
  | cons a t ih =>
    cases i with
    | zero => rfl
    | succ n => simpa [List.set] using ih n (by simpa using h)

/-- getD after set at a different position. -/
theorem getD_set_ne {α : Type} (l : List α) (i j : Nat) (v d : α) (h : i ≠ j) :
    (l.set i v).getD j d = l.getD j d := by
  induction l generalizing i j with
  | nil => rfl
  | cons a t ih =>
    cases i with
    | zero =>
      cases j with
      | zero => exact absurd rfl h
      | succ k => rfl
    | succ n =>
      cases j with
      | zero => rfl
      | succ k => simpa [List.set] using ih n k (by omega)

/-- scatter preserves the cache length. -/
theorem scatter_length (idxs : List Nat) (vals : List Rat) (cache : List Rat) :
    (scatter cache idxs vals).length = cache.length := by
  induction idxs generalizing vals cache with
  | nil => rfl
  | cons i is ih =>
    cases vals with
    | nil => rfl
    | cons v vs =>
      simpa [scatter, List.zip_cons_cons] using
        (by simpa using ih vs (cache.set i v) : (scatter (cache.set i v) is vs).length = _)

/-- Scattering values that are already in place leaves the cache
unchanged. -/
theorem scatter_self (idxs : List Nat) (vals : List Rat) (cache : List Rat)
    (h : ∀ k, k < idxs.length → k < vals.length →
      vals.getD k 0 = cache.getD (idxs.getD k 0) 0) :
    scatter cache idxs vals = cache := by
  induction idxs generalizing vals cache with
  | nil => rfl
  | cons i is ih =>
    cases vals with
    | nil => rfl
    | cons v vs =>
      have h0 : v = cache.getD i 0 := h 0 (by simp) (by simp)
      have step : cache.set i v = cache := by rw [h0]; exact set_getD_self cache i 0
      have tail : scatter cache is vs = cache := by
        refine ih vs cache (fun k hk1 hk2 => ?_)
        simpa using h (k + 1) (by simpa using hk1) (by simpa using hk2)
      calc scatter cache (i :: is) (v :: vs)
          = scatter (cache.set i v) is vs := rfl
        _ = scatter cache is vs := by rw [step]
        _ = cache := tail

/-- resize yields a list of exactly the requested length. -/
theorem resize_length (v : List Rat) (n : Nat) : (resize v n).length = n := by
  simp only [resize, List.length_append, List.length_take, List.length_replicate]
  omega

/-- The fparams_to_w loop preserves the cache length. -/
theorem fparamsLoop_length (ts : List FactorType) (wmap : List Int)
    (cache c : List Rat) (h : fparamsLoop ts wmap cache = some c) :
    c.length = cache.length := by
  induction ts generalizing cache with
  | nil =>
    have h' : cache = c := Option.some.inj h
    rw [h']
  | cons ft rest ih =>
    by_cases hc : (find wmap ft.type_id).length = ft.w.length
    · have h' : fparamsLoop rest wmap (scatter cache (find wmap ft.type_id) ft.w) = some c := by
        simpa [fparamsLoop, hc] using h
      have := ih _ h'
      simpa [scatter_length] using this
    · simp [fparamsLoop, hc] at h

/-- Inversion of a successful fparams_to_w call: the model keeps its
registry and map, and the returned cache has the current dimension. -/
theorem fparams_to_w_some (m : CFactorGraphModel) (c : List Rat)
    (m' : CFactorGraphModel) (h : fparams_to_w m = some (c, m')) :
    m' = { m with w_cache := c } ∧ c.length = get_dim m := by
  unfold fparams_to_w at h
  cases hL : fparamsLoop m.factor_types m.w_map
      (if m.w_cache.length = get_dim m then m.w_cache
       else resize m.w_cache (get_dim m)) with
  | none => rw [hL] at h; simp at h
  | some c0 =>
    rw [hL] at h
    by_cases hs : (m.factor_types.map FactorType.get_w_dim).sum = c0.length
    · simp only [hs, if_true] at h
      have hc : c0 = c ∧ ({ m with w_cache := c0 } : CFactorGraphModel) = m' := by
        constructor
        · exact congrArg Prod.fst (Option.some.inj h)
        · exact congrArg Prod.snd (Option.some.inj h)
      obtain ⟨h1, h2⟩ := hc
      subst h1
      refine ⟨h2.symm, ?_⟩
      have hlen := fparamsLoop_length _ _ _ _ hL
      by_cases he : m.w_cache.length = get_dim m
      · rw [if_pos he] at hlen; omega
      · rw [if_neg he] at hlen; rw [hlen, resize_length]
    · simp [hs] at h

/-- removeFirst finds nothing when no registered type has the id. -/
theorem removeFirst_none (l : List FactorType) (id : Int)
    (h : ∀ ft ∈ l, ft.type_id ≠ id) : removeFirst l id = none := by
  induction l with
  | nil => rfl
  | cons ft rest ih =>
    have h1 : ft.type_id ≠ id := h ft (by simp)
    simp [removeFirst, h1, ih (fun f hf => h f (by simp [hf]))]

/-- Inversion of a successful removeFirst: the first match is removed. -/
theorem removeFirst_some (l : List FactorType) (id : Int) (wd : Nat)
    (rest : List FactorType) (h : removeFirst l id = some (wd, rest)) :
    ∃ pre ft post, l = pre ++ ft :: post ∧ (∀ f ∈ pre, f.type_id ≠ id) ∧
      ft.type_id = id ∧ wd = ft.get_w_dim ∧ rest = pre ++ post := by
  induction l generalizing wd rest with
  | nil => simp [removeFirst] at h
  | cons f0 tl ih =>
    by_cases h0 : f0.type_id = id
    · refine ⟨[], f0, tl, by simp, by simp, h0, ?_, ?_⟩
      · have := h.symm
        simp [removeFirst, h0] at this
        exact this.1
      · have := h.symm
        simp [removeFirst, h0] at this
        simpa using this.2
    · simp only [removeFirst, h0, if_false, ite_false] at h
      cases hR : removeFirst tl id with
      | none => rw [hR] at h; simp at h
      | some p =>
        rw [hR] at h
        simp only [Option.map_some'] at h
        have h1 := Option.some.inj h
        injection h1 with hw hr
        obtain ⟨pre, ft, post, hl, hpre, hid, hwd, hrest⟩ := ih p.1 p.2 (by rw [hR])
        refine ⟨f0 :: pre, ft, post, by simp [hl], ?_, hid, ?_, ?_⟩
        · intro f hf
          rcases List.mem_cons.mp hf with h1' | h1'
          · exact h1' ▸ h0
          · exact hpre f h1'
        · rw [← hw]; exact hwd
        · rw [← hr]; simp [hrest]

end Lemmas

section Claims

/-- getD on a mapped division. -/
theorem getD_map_div (v : List Rat) (s : Rat) (i : Nat) (h : i < v.length) :
    (v.map (fun x => x / s)).getD i 0 = v.getD i 0 / s := by
  induction v generalizing i with
  | nil => simp at h
  | cons a t ih =>
    cases i with
    | zero => rfl
    | succ n => simpa using ih n (by simpa using h)

/-- C10: apply_to_feature_vector returns a fresh vector of the same
length whose i-th entry is the i-th input entry divided by the sum of
all input entries; the sum is not checked for zero, so a zero-sum input
is still divided through rather than rejected (the embedding is a total
pure function, hence the input itself is untouched; rational division by
zero yields 0 where IEEE doubles give an infinity or NaN). -/
theorem sumone_apply_to_feature_vector_spec (v : List Rat) :
    (CSumOne.apply_to_feature_vector v).length = v.length ∧
    (∀ i, i < v.length →
      (CSumOne.apply_to_feature_vector v).getD i 0 = v.getD i 0 / v.sum) ∧
    (CSumOne.apply_to_feature_vector [1, -1]).length = 2 := by
  refine ⟨by simp [CSumOne.apply_to_feature_vector], ?_, by rfl⟩
  intro i hi
  exact getD_map_div v v.sum i hi

/-- Witness for C10 at v = [1, 3], i = 0. -/
theorem sumone_apply_to_feature_vector_spec_witness :
    (CSumOne.apply_to_feature_vector [(1 : Rat), 3]).getD 0 0 =
      [(1 : Rat), 3].getD 0 0 / [(1 : Rat), 3].sum :=
  (sumone_apply_to_feature_vector_spec [(1 : Rat), 3]).2.1 0 (by decide)

/-- The loss sum over identical sequences vanishes. -/
theorem dlSum_self (s : List Int) (w : List Rat) : dlSum s s w = 0 := by
  induction s generalizing w with
  | nil => rfl
  | cons a t ih => simp [dlSum, ih]

/-- With unit weights the loss sum is the Hamming distance. -/
theorem dlSum_replicate (p t : List Int) (h : p.length = t.length) :
    dlSum p t (List.replicate t.length 1) = hamming p t := by
  induction p generalizing t with
  | nil =>
    cases t with
    | nil => rfl
    | cons b bs => simp at h
  | cons a as ih =>
    cases t with
    | nil => simp at h
    | cons b bs =>
      have h' : as.length = bs.length := by simpa using h
      simp [dlSum, hamming, List.replicate_succ, ih bs h']

/-- The Hamming distance is symmetric. -/
theorem hamming_comm (p t : List Int) : hamming p t = hamming t p := by
  induction p generalizing t with
  | nil => cases t <;> rfl
  | cons a as ih =>
    cases t with
    | nil => rfl
    | cons b bs =>
      by_cases hab : a = b
      · subst hab; simp [hamming, ih bs]
      · have hba : ¬ b = a := fun hx => hab hx.symm
        simp [hamming, hab, hba, ih bs]

/-- C9: delta_loss fails (assertion) when the two state sequences differ
in length; it is a pure function of its arguments; delta_loss(y, y) = 0;
and under unit loss weights it equals the Hamming distance and is
symmetric (the general successful case sums the truth's per-position
loss weight over differing positions, which is the definition dlSum,
translated from lines 384-391 of FactorGraphModel.cpp). -/
theorem delta_loss_spec :
    (∀ y1 y2 : FactorGraphObservation, y2.states.length ≠ y1.states.length →
      delta_loss y1 y2 = none) ∧
    (∀ y : FactorGraphObservation, delta_loss y y = some 0) ∧
    (∀ y1 y2 : FactorGraphObservation,
      y1.loss_weights = List.replicate y1.states.length 1 →
      y2.loss_weights = List.replicate y2.states.length 1 →
      y2.states.length = y1.states.length →
      delta_loss y1 y2 = some (hamming y2.states y1.states) ∧
      delta_loss y1 y2 = delta_loss y2 y1) := by
  refine ⟨?_, ?_, ?_⟩
  · intro y1 y2 h
    simp [delta_loss, h]
  · intro y
    simp [delta_loss, dlSum_self]
  · intro y1 y2 h1 h2 hlen
    constructor
    · unfold delta_loss
      rw [if_pos hlen, h1, dlSum_replicate _ _ hlen]
    · unfold delta_loss
      rw [if_pos hlen, if_pos hlen.symm, h1, h2,
        dlSum_replicate _ _ hlen, dlSum_replicate _ _ hlen.symm, hamming_comm]

/-- Witness for C9 at y1 = ([1,2],[1,1]), y2 = ([1,3],[1,1]). -/
theorem delta_loss_spec_witness :
    delta_loss ⟨[1, 2], [1, 1]⟩ ⟨[1, 3], [1, 1]⟩ = some (hamming [1, 3] [1, 2]) ∧
    delta_loss ⟨[1, 2], [1, 1]⟩ ⟨[1, 3], [1, 1]⟩ =
      delta_loss ⟨[1, 3], [1, 1]⟩ ⟨[1, 2], [1, 1]⟩ :=
  delta_loss_spec.2.2 ⟨[1, 2], [1, 1]⟩ ⟨[1, 3], [1, 1]⟩ (by decide) (by decide) (by decide)

/-- C5: add_factor_type fails when the weight dimension is zero; a
duplicate id is a warning-and-return no-op leaving the model unchanged;
otherwise the type is appended to the registry, w_dim copies of its id
are appended to the end of the parameter map, and the cache is rebuilt
to the new dimension. -/
theorem add_factor_type_spec :
    (∀ m ft, FactorType.get_w_dim ft = 0 → add_factor_type m ft = none) ∧
    (∀ m ft, ft.get_w_dim ≠ 0 →
      (∃ f ∈ m.factor_types, f.type_id = ft.type_id) →
      add_factor_type m ft = some m) ∧
    (∀ m ft m', (∀ f ∈ m.factor_types, f.type_id ≠ ft.type_id) →
      add_factor_type m ft = some m' →
      m'.factor_types = m.factor_types ++ [ft] ∧
      m'.w_map = m.w_map ++ List.replicate ft.get_w_dim ft.type_id ∧
      m'.w_cache.length = m'.w_map.length) := by
  refine ⟨?_, ?_, ?_⟩
  · intro m ft h
    simp [add_factor_type, h]
  · intro m ft h hdup
    obtain ⟨f, hf, hfid⟩ := hdup
    have hany : m.factor_types.any (fun f => f.type_id == ft.type_id) = true :=
      List.any_eq_true.mpr ⟨f, hf, by simpa using hfid⟩
    simp [add_factor_type, h, hany]
  · intro m ft m' hfresh h
    by_cases h0 : ft.get_w_dim = 0
    · simp [add_factor_type, h0] at h
    · have hany : m.factor_types.any (fun f => f.type_id == ft.type_id) = false := by
        simp only [List.any_eq_false]
        intro f hf
        simpa using hfresh f hf
      rw [add_factor_type, if_neg h0, hany] at h
      simp only [Bool.false_eq_true, if_false] at h
      cases hF : fparams_to_w
          { m with factor_types := m.factor_types ++ [ft],
                   w_map := m.w_map ++ List.replicate ft.get_w_dim ft.type_id } with
      | none => rw [hF] at h; simp at h
      | some p =>
        rw [hF] at h
        have hm' : p.2 = m' := Option.some.inj h
        obtain ⟨hmod, hlen⟩ := fparams_to_w_some _ p.1 p.2 (by rw [hF])
        rw [← hm', hmod]
        refine ⟨rfl, rfl, ?_⟩
        simpa [get_dim] using hlen

/-- Witness for C5: registering ftA in the empty model. -/
theorem add_factor_type_spec_witness :
    mA.factor_types = mEmpty.factor_types ++ [ftA] ∧
    mA.w_map = mEmpty.w_map ++ List.replicate ftA.get_w_dim ftA.type_id ∧
    mA.w_cache.length = mA.w_map.length :=
  add_factor_type_spec.2.2 mEmpty ftA mA (by decide) (by decide)

/-- C6: del_factor_type fails (assertion) when no registered type has
the id; on success it removes the first matching type, rebuilds the
parameter map by filtering out exactly the slots with that id (keeping
relative order), shrinks the map length by the removed type's w_dim, and
leaves the weight cache untouched; the registry scenario (add A id=1
w_dim=2, add B id=2 w_dim=3, remove A) runs [1,1] to [1,1,2,2,2] to
[2,2,2] with dimensions 2, 5, 3. -/
theorem del_factor_type_spec :
    (∀ m id, (∀ ft ∈ m.factor_types, ft.type_id ≠ id) →
      del_factor_type m id = none) ∧
    (∀ m id m', del_factor_type m id = some m' →
      m'.w_cache = m.w_cache ∧
      m'.w_map = m.w_map.filter (fun s => ¬ s == id) ∧
      (∃ pre ft post, m.factor_types = pre ++ ft :: post ∧
        (∀ f ∈ pre, f.type_id ≠ id) ∧ ft.type_id = id ∧
        m'.factor_types = pre ++ post ∧
        m'.w_map.length = m.w_map.length - ft.get_w_dim)) ∧
    (add_factor_type mEmpty ftA = some mA ∧ get_dim mA = 2 ∧ mA.w_map = [1, 1] ∧
     add_factor_type mA ftB = some mAB ∧ get_dim mAB = 5 ∧
     mAB.w_map = [1, 1, 2, 2, 2] ∧
     del_factor_type mAB 1 = some mB2 ∧ get_dim mB2 = 3 ∧ mB2.w_map = [2, 2, 2]) := by
  refine ⟨?_, ?_, by decide⟩
  · intro m id h
    simp [del_factor_type, removeFirst_none m.factor_types id h]
  · intro m id m' h
    unfold del_factor_type at h
    cases hR : removeFirst m.factor_types id with
    | none => rw [hR] at h; simp at h
    | some p =>
      obtain ⟨wd, rest⟩ := p
      rw [hR] at h
      simp only [] at h
      by_cases h0 : wd = 0
      · rw [if_pos h0] at h; simp at h
      · rw [if_neg h0] at h
        by_cases hlen : (m.w_map.filter (fun s => ¬ s == id)).length = m.w_map.length - wd
        · rw [if_pos hlen] at h
          have hm' := Option.some.inj h
          obtain ⟨pre, ft, post, hl, hpre, hid, hwd, hrest⟩ :=
            removeFirst_some m.factor_types id wd rest hR
          refine ⟨by rw [← hm'], by rw [← hm'], pre, ft, post, hl, hpre, hid, ?_, ?_⟩
          · rw [← hm', hrest]
          · rw [← hm', ← hwd]
            exact hlen
        · rw [if_neg hlen] at h; simp at h

/-- Witness for C6: removing type 1 from the two-type model. -/
theorem del_factor_type_spec_witness :
    mB2.w_cache = mAB.w_cache ∧
    mB2.w_map = mAB.w_map.filter (fun s => ¬ s == (1 : Int)) ∧
    (∃ pre ft post, mAB.factor_types = pre ++ ft :: post ∧
      (∀ f ∈ pre, f.type_id ≠ 1) ∧ ft.type_id = 1 ∧
      mB2.factor_types = pre ++ post ∧
      mB2.w_map.length = mAB.w_map.length - ft.get_w_dim) :=
  del_factor_type_spec.2.1 mAB 1 mB2 (by decide)

/-- C1 counterexample: register a type with w_dim 1 and then delete it;
the parameter map is rebuilt to length 0 but the weight cache keeps its
one entry, so immediately after del_factor_type the cache length does
not equal dimension(). -/
theorem w_cache_invariant_cex :
    add_factor_type mEmpty ftC = some mEx ∧
    del_factor_type mEx 1 = some mDel ∧
    mDel.w_cache.length ≠ get_dim mDel := by decide

/-- C1 amended: every add_factor_type call preserves (and, when it
really registers, re-establishes) length(w_cache) = length(w_map),
because it ends in a cache rebuild; del_factor_type however leaves
w_cache untouched while shrinking w_map by the removed type's w_dim, so
immediately after a deletion the cache length equals the old dimension,
not dimension(); equality is restored by the next rebuild. -/
theorem w_cache_invariant_amended :
    (∀ m ft m', add_factor_type m ft = some m' →
      m.w_cache.length = m.w_map.length →
      m'.w_cache.length = m'.w_map.length) ∧
    (∀ m id m', del_factor_type m id = some m' →
      m'.w_cache = m.w_cache ∧
      ∃ ft ∈ m.factor_types, ft.type_id = id ∧
        m'.w_map.length = m.w_map.length - ft.get_w_dim) := by
  constructor
  · intro m ft m' h hpre
    by_cases h0 : ft.get_w_dim = 0
    · simp [add_factor_type, h0] at h
    · by_cases hdup : m.factor_types.any (fun f => f.type_id == ft.type_id) = true
      · rw [add_factor_type, if_neg h0, hdup] at h
        simp only [if_true] at h
        rw [← Option.some.inj h]
        exact hpre
      · have hany : m.factor_types.any (fun f => f.type_id == ft.type_id) = false := by
          simpa using hdup
        rw [add_factor_type, if_neg h0, hany] at h
        simp only [Bool.false_eq_true, if_false] at h
        cases hF : fparams_to_w
            { m with factor_types := m.factor_types ++ [ft],
                     w_map := m.w_map ++ List.replicate ft.get_w_dim ft.type_id } with
        | none => rw [hF] at h; simp at h
        | some p =>
          rw [hF] at h
          obtain ⟨hmod, hlen⟩ := fparams_to_w_some _ p.1 p.2 (by rw [hF])
          rw [← Option.some.inj h, hmod]
          simpa [get_dim] using hlen
  · intro m id m' h
    unfold del_factor_type at h
    cases hR : removeFirst m.factor_types id with
    | none => rw [hR] at h; simp at h
    | some p =>
      obtain ⟨wd, rest⟩ := p
      rw [hR] at h
      simp only [] at h
      by_cases h0 : wd = 0
      · rw [if_pos h0] at h; simp at h
      · rw [if_neg h0] at h
        by_cases hlen : (m.w_map.filter (fun s => ¬ s == id)).length = m.w_map.length - wd
        · rw [if_pos hlen] at h
          have hm' := Option.some.inj h
          obtain ⟨pre, ft, post, hl, hpre2, hid, hwd, hrest⟩ :=
            removeFirst_some m.factor_types id wd rest hR
          refine ⟨by rw [← hm'], ft, ?_, hid, ?_⟩
          · rw [hl]; simp
          · rw [← hm', ← hwd]
            exact hlen
        · rw [if_neg hlen] at h; simp at h

/-- Witness for C1 amended: the deletion of type 1 from mEx keeps the
cache and shrinks the map by one slot. -/
theorem w_cache_invariant_amended_witness :
    mDel.w_cache = mEx.w_cache ∧
    ∃ ft ∈ mEx.factor_types, ft.type_id = 1 ∧
      mDel.w_map.length = mEx.w_map.length - ft.get_w_dim :=
  w_cache_invariant_amended.2 mEx 1 mDel (by decide)

/-- A fold whose step preserves length preserves length. -/
theorem foldl_length_preserved {α : Type} (l : List α) (psi : List Rat)
    (step : List Rat → α → List Rat)
    (h : ∀ p a, (step p a).length = p.length) :
    (l.foldl step psi).length = psi.length := by
  induction l generalizing psi with
  | nil => rfl
  | cons a t ih => rw [List.foldl_cons, ih, h]

/-- addAt preserves the length of psi. -/
theorem addAt_length (psi : List Rat) (slots : List Nat) (ei : Nat)
    (dat : List Rat) : (addAt psi slots ei dat).length = psi.length := by
  unfold addAt
  exact foldl_length_preserved _ _ _ (fun p a => by simp)

/-- The joint-feature loop preserves the length of psi. -/
theorem gjfvLoop_length (facs : List Factor) (wmap : List Int)
    (states : List Int) (psi r : List Rat)
    (h : gjfvLoop facs wmap states psi = some r) : r.length = psi.length := by
  induction facs generalizing psi with
  | nil => rw [Option.some.inj h]
  | cons fac rest ih =>
    simp only [gjfvLoop] at h
    by_cases h1 : (find wmap fac.ftype.type_id).length = fac.ftype.get_w_dim
    · rw [if_pos h1] at h
      by_cases h2 : (find wmap fac.ftype.type_id).length =
          fac.data.length * fac.ftype.get_num_assignments
      · rw [if_pos h2] at h
        rw [ih _ h, addAt_length]
      · rw [if_neg h2] at h; simp at h
    · rw [if_neg h1] at h; simp at h

/-- C3: get_joint_feature_vector accumulates every factor's data into
the slots of its type at the table index of the restricted assignment,
starting from a zero vector of length dimension() and negating at the
end, so any successful result has length dimension(); on the spec's
scenario (single factor, w_dim 4, two assignments, data [1,1],
assignment index 1) the result is -1 at global slots 2 and 3 and zero
elsewhere; and the call fails the assertion when the slot-range length
does not equal data_size times num_assignments. -/
theorem get_joint_feature_vector_spec :
    (∀ m fg states r, get_joint_feature_vector m fg states = some r →
      r.length = get_dim m) ∧
    get_joint_feature_vector m7 fg7 [1] = some [0, 0, -1, -1] ∧
    get_joint_feature_vector m7 fg7bad [1] = none := by
  refine ⟨?_, by decide, by decide⟩
  intro m fg states r h
  simp only [get_joint_feature_vector] at h
  cases hL : gjfvLoop fg.factors m.w_map states (List.replicate (get_dim m) 0) with
  | none => rw [hL] at h; simp at h
  | some p =>
    rw [hL] at h
    simp only [Option.map_some'] at h
    rw [← Option.some.inj h]
    simp [gjfvLoop_length _ _ _ _ _ hL]

/-- Witness for C3: the scenario vector indeed has length dimension(). -/
theorem get_joint_feature_vector_spec_witness :
    ([0, 0, -1, -1] : List Rat).length = get_dim m7 :=
  get_joint_feature_vector_spec.1 m7 fg7 [1] [0, 0, -1, -1] (by decide)

/-- Inversion of a successful argmax call: names all intermediate
results and exposes the result fields and the event trace. -/
theorem argmax_inv (m : CFactorGraphModel) (F : List FactorGraphInst)
    (L : List FactorGraphObservation) (w : List Rat) (i : Nat) (t : Bool)
    (rs : CResultSet) (m' : CFactorGraphModel) (tr : List Ev)
    (h : argmax m F L w i t = some (rs, m', tr)) :
    ∃ fg y_truth m1 psi_t psi_p d,
      F.get? i = some fg ∧ L.get? i = some y_truth ∧
      w_to_fparams m w = some m1 ∧
      get_joint_feature_vector m1 fg y_truth.states = some psi_t ∧
      get_joint_feature_vector m1 fg (fg.infer_map t) = some psi_p ∧
      delta_loss y_truth
        ⟨fg.infer_map t, List.replicate (fg.infer_map t).length 1⟩ = some d ∧
      rs = ⟨fg.infer_map t, psi_t, psi_p,
        fg.energy false y_truth.states - fg.energy t (fg.infer_map t), d⟩ ∧
      m' = m1 ∧
      tr = [Ev.connectEv, Ev.computeEnergiesEv, Ev.psiTruthEv,
            Ev.evalEnergyEv y_truth.states]
           ++ (if t then [Ev.lossAugEv] else [])
           ++ [Ev.inferenceEv, Ev.psiPredEv, Ev.evalEnergyEv (fg.infer_map t)] := by
  unfold argmax at h
  cases hF : F.get? i with
  | none => rw [hF] at h; simp at h
  | some fg =>
    rw [hF] at h
    simp only [] at h
    by_cases htree : m.inf_type = EMAPInferType.TREE_MAX_PROD ∧ fg.is_tree = false
    · rw [if_pos htree] at h; simp at h
    · rw [if_neg htree] at h
      cases hW : w_to_fparams m w with
      | none => rw [hW] at h; simp at h
      | some m1 =>
        rw [hW] at h
        simp only [] at h
        cases hL : L.get? i with
        | none => rw [hL] at h; simp at h
        | some y_truth =>
          rw [hL] at h
          simp only [] at h
          cases hP : get_joint_feature_vector m1 fg y_truth.states with
          | none => rw [hP] at h; simp at h
          | some psi_t =>
            rw [hP] at h
            simp only [] at h
            cases hQ : get_joint_feature_vector m1 fg (fg.infer_map t) with
            | none => rw [hQ] at h; simp at h
            | some psi_p =>
              rw [hQ] at h
              simp only [] at h
              cases hD : delta_loss y_truth
                  ⟨fg.infer_map t, List.replicate (fg.infer_map t).length 1⟩ with
              | none => rw [hD] at h; simp at h
              | some d =>
                rw [hD] at h
                simp only [] at h
                have h1 := Option.some.inj h
                rw [Prod.mk.injEq, Prod.mk.injEq] at h1
                exact ⟨fg, y_truth, m1, psi_t, psi_p, d, rfl, rfl, rfl, hP, hQ, hD,
                  h1.1.symm, h1.2.1.symm, h1.2.2.symm⟩

/-- C2: the score field of a successful argmax equals the ground-truth
energy minus the (possibly loss-augmented) energy of the predicted
assignment, the delta field is delta_loss(y_truth, y_star), and in
training mode, whenever the external loss augmentation obeys its
contract E_aug(y) = E(y) - delta(y_truth, y), the score equals the
max-oracle value [loss(y_truth, y_star) - E(x, y_star)] + E(x, y_truth)
(lines 275-280 and 281-373 of FactorGraphModel.cpp). -/
theorem argmax_score_spec (m : CFactorGraphModel) (F : List FactorGraphInst)
    (L : List FactorGraphObservation) (w : List Rat) (i : Nat) (t : Bool)
    (rs : CResultSet) (m' : CFactorGraphModel) (tr : List Ev)
    (fg : FactorGraphInst) (y_truth : FactorGraphObservation)
    (h : argmax m F L w i t = some (rs, m', tr))
    (hf : F.get? i = some fg) (hl : L.get? i = some y_truth) :
    rs.argmax_states = fg.infer_map t ∧
    rs.score = fg.energy false y_truth.states - fg.energy t rs.argmax_states ∧
    delta_loss y_truth
      ⟨rs.argmax_states, List.replicate rs.argmax_states.length 1⟩
      = some rs.delta ∧
    (t = true →
      (∀ y d, delta_loss y_truth ⟨y, List.replicate y.length 1⟩ = some d →
        fg.energy true y = fg.energy false y - d) →
      rs.score = (rs.delta - fg.energy false rs.argmax_states)
        + fg.energy false y_truth.states) := by
  obtain ⟨fg0, y0, m1, psi_t, psi_p, d, hF, hL, hW, hP, hQ, hD, hrs, hm, htr⟩ :=
    argmax_inv m F L w i t rs m' tr h
  have hfg : fg0 = fg := Option.some.inj (hF ▸ hf)
  have hy : y0 = y_truth := Option.some.inj (hL ▸ hl)
  subst hfg hy hrs
  refine ⟨rfl, rfl, hD, ?_⟩
  intro ht hprop
  subst ht
  have hE := hprop (fg0.infer_map true) d hD
  simp only [CResultSet.score, CResultSet.delta, CResultSet.argmax_states]
  rw [hE]
  ring

/-- Witness for C2 on the one-type model with an empty factor graph in
training mode. -/
theorem argmax_score_spec_witness :
    (⟨[], [0], [0], 0, 0⟩ : CResultSet).argmax_states = fgE.infer_map true ∧
    (⟨[], [0], [0], 0, 0⟩ : CResultSet).score
      = fgE.energy false yE.states - fgE.energy true
        (⟨[], [0], [0], 0, 0⟩ : CResultSet).argmax_states ∧
    delta_loss yE ⟨(⟨[], [0], [0], 0, 0⟩ : CResultSet).argmax_states,
        List.replicate (⟨[], [0], [0], 0, 0⟩ : CResultSet).argmax_states.length 1⟩
      = some (⟨[], [0], [0], 0, 0⟩ : CResultSet).delta ∧
    (true = true →
      (∀ y d, delta_loss yE ⟨y, List.replicate y.length 1⟩ = some d →
        fgE.energy true y = fgE.energy false y - d) →
      (⟨[], [0], [0], 0, 0⟩ : CResultSet).score
        = ((⟨[], [0], [0], 0, 0⟩ : CResultSet).delta
            - fgE.energy false (⟨[], [0], [0], 0, 0⟩ : CResultSet).argmax_states)
          + fgE.energy false yE.states) :=
  argmax_score_spec mEx [fgE] [yE] [1/2] 0 true ⟨[], [0], [0], 0, 0⟩ mEx
    [Ev.connectEv, Ev.computeEnergiesEv, Ev.psiTruthEv, Ev.evalEnergyEv [],
     Ev.lossAugEv, Ev.inferenceEv, Ev.psiPredEv, Ev.evalEnergyEv []]
    fgE yE (by decide) rfl rfl

/-- C8: argmax with training=false never emits a loss-augmentation
event; with training=true the loss augmentation happens exactly once,
after the psi_truth computation and the ground-truth energy evaluation
and before MAP inference runs (lines 313-335 of FactorGraphModel.cpp). -/
theorem argmax_loss_augmentation_spec (m : CFactorGraphModel)
    (F : List FactorGraphInst) (L : List FactorGraphObservation)
    (w : List Rat) (i : Nat) (t : Bool) (rs : CResultSet)
    (m' : CFactorGraphModel) (tr : List Ev)
    (h : argmax m F L w i t = some (rs, m', tr)) :
    (t = false → Ev.lossAugEv ∉ tr) ∧
    (t = true → ∃ pre post, tr = pre ++ Ev.lossAugEv :: post ∧
      Ev.lossAugEv ∉ pre ∧ Ev.lossAugEv ∉ post ∧
      Ev.psiTruthEv ∈ pre ∧ (∃ s, Ev.evalEnergyEv s ∈ pre) ∧
      Ev.inferenceEv ∈ post) := by
  obtain ⟨fg, y0, m1, psi_t, psi_p, d, hF, hL, hW, hP, hQ, hD, hrs, hm, htr⟩ :=
    argmax_inv m F L w i t rs m' tr h
  subst htr
  constructor
  · intro ht
    subst ht
    simp
  · intro ht
    subst ht
    refine ⟨[Ev.connectEv, Ev.computeEnergiesEv, Ev.psiTruthEv,
        Ev.evalEnergyEv y0.states],
      [Ev.inferenceEv, Ev.psiPredEv, Ev.evalEnergyEv (fg.infer_map true)],
      by simp, by simp, by simp, by simp, ⟨y0.states, by simp⟩, by simp⟩

/-- Witness for C8 on the one-type model with an empty factor graph in
training mode. -/
theorem argmax_loss_augmentation_spec_witness :
    (true = false → Ev.lossAugEv ∉
      [Ev.connectEv, Ev.computeEnergiesEv, Ev.psiTruthEv, Ev.evalEnergyEv [],
       Ev.lossAugEv, Ev.inferenceEv, Ev.psiPredEv, Ev.evalEnergyEv []]) ∧
    (true = true → ∃ pre post,
      [Ev.connectEv, Ev.computeEnergiesEv, Ev.psiTruthEv, Ev.evalEnergyEv [],
       Ev.lossAugEv, Ev.inferenceEv, Ev.psiPredEv, Ev.evalEnergyEv []]
        = pre ++ Ev.lossAugEv :: post ∧
      Ev.lossAugEv ∉ pre ∧ Ev.lossAugEv ∉ post ∧
      Ev.psiTruthEv ∈ pre ∧ (∃ s, Ev.evalEnergyEv s ∈ pre) ∧
      Ev.inferenceEv ∈ post) :=
  argmax_loss_augmentation_spec mEx [fgE] [yE] [1/2] 0 true
    ⟨[], [0], [0], 0, 0⟩ mEx
    [Ev.connectEv, Ev.computeEnergiesEv, Ev.psiTruthEv, Ev.evalEnergyEv [],
     Ev.lossAugEv, Ev.inferenceEv, Ev.psiPredEv, Ev.evalEnergyEv []]
    (by decide)

/-- getD of a mapped list at an in-range position. -/
theorem getD_map_at {α : Type} (l : List α) (f : α → Rat) (k : Nat)
    (h : k < l.length) :
    (l.map f).getD k 0 = f (l.get ⟨k, h⟩) := by
  induction l generalizing k with
  | nil => simp at h
  | cons a t ih =>
    cases k with
    | zero => rfl
    | succ n => simpa using ih n (by simpa using h)

/-- A gathered block reads the cache at the mapped slot. -/
theorem getD_gatherFW (cache : List Rat) (fm : List Nat) (n k : Nat)
    (h : k < n) :
    (gatherFW cache fm n).getD k 0 = cache.getD (fm.getD k 0) 0 := by
  have hk : k < (List.range n).length := by simpa
  rw [gatherFW, getD_map_at _ _ k hk, List.get_range]

/-- Re-collecting the blocks just distributed by w_to_fparams gives the
distributed vector back. -/
theorem fparamsLoop_wtof (ts : List FactorType) (wmap : List Int)
    (w : List Rat)
    (hs : ∀ ft ∈ ts, (find wmap ft.type_id).length = ft.w.length) :
    fparamsLoop (wtofLoop ts wmap w) wmap w = some w := by
  induction ts with
  | nil => rfl
  | cons ft rest ih =>
    have hlen : (find wmap ft.type_id).length = ft.w.length := hs ft (by simp)
    have hglen : (gatherFW w (find wmap ft.type_id) ft.w.length).length
        = ft.w.length := by simp [gatherFW]
    simp only [wtofLoop, fparamsLoop]
    rw [if_pos (hlen.trans hglen.symm)]
    rw [scatter_self _ _ _ (fun k hk1 hk2 => ?_)]
    · exact ih (fun f hf => hs f (by simp [hf]))
    · exact getD_gatherFW w (find wmap ft.type_id) ft.w.length k
        (by omega)

/-- When every type's weights already agree with the cache at its slots,
the collection loop is the identity on the cache. -/
theorem fparamsLoop_synced (ts : List FactorType) (wmap : List Int)
    (w : List Rat)
    (hs : ∀ ft ∈ ts, (find wmap ft.type_id).length = ft.w.length)
    (hsync : ∀ ft ∈ ts, ∀ k, k < ft.w.length →
      ft.w.getD k 0 = w.getD ((find wmap ft.type_id).getD k 0) 0) :
    fparamsLoop ts wmap w = some w := by
  induction ts with
  | nil => rfl
  | cons ft rest ih =>
    have hlen : (find wmap ft.type_id).length = ft.w.length := hs ft (by simp)
    simp only [fparamsLoop]
    rw [if_pos hlen]
    rw [scatter_self _ _ _ (fun k hk1 hk2 => hsync ft (by simp) k hk2)]
    exact ih (fun f hf => hs f (by simp [hf]))
      (fun f hf => hsync f (by simp [hf]))

/-- The per-type weight dimensions are unchanged by w_to_fparams. -/
theorem wtofLoop_wdims (ts : List FactorType) (wmap : List Int)
    (w : List Rat) :
    (wtofLoop ts wmap w).map FactorType.get_w_dim
      = ts.map FactorType.get_w_dim := by
  induction ts with
  | nil => rfl
  | cons ft rest ih =>
    simp only [wtofLoop, List.map_cons, ih]
    congr 1
    simp [FactorType.get_w_dim, gatherFW]

/-- A model whose cache already passes the loop unchanged collects to
exactly that cache. -/
theorem fparams_to_w_eval (m : CFactorGraphModel)
    (h1 : m.w_cache.length = get_dim m)
    (h2 : fparamsLoop m.factor_types m.w_map m.w_cache = some m.w_cache)
    (h3 : (m.factor_types.map FactorType.get_w_dim).sum = m.w_cache.length) :
    fparams_to_w m = some (m.w_cache, m) := by
  unfold fparams_to_w
  rw [if_pos h1, h2]
  simp only []
  rw [if_pos h3]

/-- C7: the two parameter transfers form a round trip. In a structurally
consistent model whose cache agrees with the registered types' own
weights: (a) distributing the vector just collected is a no-op (the
dirty check returns immediately), and (b) for every w of the correct
length, w_to_fparams(w) followed by fparams_to_w() returns w exactly. -/
theorem fgm_round_trip (m : CFactorGraphModel) (w : List Rat)
    (hc : Consistent m) (hsync : Synced m) :
    (∀ c m2, fparams_to_w m = some (c, m2) → w_to_fparams m2 c = some m2) ∧
    (w.length = get_dim m → ∃ m1 m2,
      w_to_fparams m w = some m1 ∧ fparams_to_w m1 = some (w, m2)) := by
  obtain ⟨hnodup, hslots, hclen, hsum⟩ := hc
  constructor
  · intro c m2 h
    obtain ⟨hmod, hlen⟩ := fparams_to_w_some m c m2 h
    have hcache : m2.w_cache = c := by rw [hmod]
    unfold w_to_fparams
    rw [if_pos hcache]
  · intro hw
    by_cases hcw : m.w_cache = w
    · refine ⟨m, m, ?_, ?_⟩
      · unfold w_to_fparams
        rw [if_pos hcw]
      · rw [← hcw]
        exact fparams_to_w_eval m hclen
          (fparamsLoop_synced m.factor_types m.w_map m.w_cache hslots hsync)
          (by rw [hclen]; exact hsum)
    · have hlw : w.length = m.w_cache.length := by
        rw [hclen]; exact hw
      have hsum' : (m.factor_types.map FactorType.get_w_dim).sum = w.length := by
        rw [hsum]; exact hw.symm
      refine ⟨{ m with w_cache := w, factor_types := wtofLoop m.factor_types m.w_map w }, { m with w_cache := w, factor_types := wtofLoop m.factor_types m.w_map w }, ?_, ?_⟩
      · unfold w_to_fparams
        rw [if_neg hcw, if_pos hlw, if_pos hsum']
      · exact fparams_to_w_eval
          { m with w_cache := w, factor_types := wtofLoop m.factor_types m.w_map w }
          hw (fparamsLoop_wtof m.factor_types m.w_map w hslots)
          (show ((wtofLoop m.factor_types m.w_map w).map
              FactorType.get_w_dim).sum = w.length from by
            rw [wtofLoop_wdims]; exact hsum')

/-- Witness for C7 on the one-type model with w = [3]. -/
theorem fgm_round_trip_witness :
    ∃ m1 m2, w_to_fparams mEx [3] = some m1 ∧ fparams_to_w m1 = some ([3], m2) :=
  (fgm_round_trip mEx [3] (by decide) (by decide)).2 (by decide)

/-- getD at an in-range position is an element of the list. -/
theorem getD_mem {α : Type} (l : List α) (k : Nat) (d : α) (h : k < l.length) :
    l.getD k d ∈ l := by
  induction l generalizing k with
  | nil => simp at h
  | cons a t ih =>
    cases k with
    | zero => simp [List.getD]
    | succ n =>
      have := ih n (by simpa using h)
      simp only [List.getD_cons_succ]
      exact List.mem_cons_of_mem a this

/-- getD at an in-range position of a replicate list is the element. -/
theorem getD_replicate {α : Type} (n k : Nat) (a d : α) (h : k < n) :
    (List.replicate n a).getD k d = a := by
  induction n generalizing k with
  | zero => omega
  | succ n ih =>
    cases k with
    | zero => rfl
    | succ j => simpa [List.replicate_succ] using ih j (by omega)

/-- getD at an in-range position equals get. -/
theorem getD_eq_get {α : Type} (l : List α) (k : Nat) (d : α)
    (h : k < l.length) :
    l.getD k d = l.get ⟨k, h⟩ := by
  induction l generalizing k with
  | nil => simp at h
  | cons a t ih =>
    cases k with
    | zero => rfl
    | succ n => simpa using ih n (by simpa using h)

/-- Every slot index returned by find is in range. -/
theorem find_lt (v : List Int) (x : Int) (i : Nat) (h : i ∈ find v x) :
    i < v.length := by
  induction v generalizing i with
  | nil => simp [find] at h
  | cons a rest ih =>
    simp only [find] at h
    by_cases ha : a = x
    · rw [if_pos ha] at h
      rcases List.mem_cons.mp h with h0 | h1
      · rw [h0]; simp
      · obtain ⟨j, hj, hji⟩ := List.mem_map.mp h1
        have := ih j hj
        simp only [List.length_cons]
        omega
    · rw [if_neg ha] at h
      obtain ⟨j, hj, hji⟩ := List.mem_map.mp h
      have := ih j hj
      simp only [List.length_cons]
      omega

/-- Every slot index returned by find carries the searched id. -/
theorem find_val (v : List Int) (x : Int) (i : Nat) (h : i ∈ find v x) :
    v.getD i 0 = x := by
  induction v generalizing i with
  | nil => simp [find] at h
  | cons a rest ih =>
    simp only [find] at h
    by_cases ha : a = x
    · rw [if_pos ha] at h
      rcases List.mem_cons.mp h with h0 | h1
      · rw [h0]; exact ha
      · obtain ⟨j, hj, hji⟩ := List.mem_map.mp h1
        rw [← hji]
        simpa using ih j hj
    · rw [if_neg ha] at h
      obtain ⟨j, hj, hji⟩ := List.mem_map.mp h
      rw [← hji]
      simpa using ih j hj

/-- Slot lists of different ids are disjoint. -/
theorem find_disjoint (v : List Int) (x y : Int) (i : Nat) (hxy : x ≠ y)
    (hx : i ∈ find v x) (hy : i ∈ find v y) : False :=
  hxy ((find_val v x i hx).symm.trans (find_val v y i hy))

/-- find returns strictly increasing indices. -/
theorem find_pairwise (v : List Int) (x : Int) :
    (find v x).Pairwise (fun a b => a < b) := by
  induction v with
  | nil => simp [find]
  | cons a rest ih =>
    simp only [find]
    have hmap : ((find rest x).map (fun i => i + 1)).Pairwise
        (fun a b => a < b) := by
      rw [List.pairwise_map]
      exact ih.imp (by omega)
    by_cases ha : a = x
    · rw [if_pos ha]
      refine List.Pairwise.cons ?_ hmap
      intro j hj
      obtain ⟨j0, hj0, hji⟩ := List.mem_map.mp hj
      omega
    · rw [if_neg ha]
      exact hmap

/-- Distinct positions of a find result hold distinct indices. -/
theorem find_getD_ne (v : List Int) (x : Int) (k k' : Nat)
    (hk : k < (find v x).length) (hk' : k' < (find v x).length)
    (hne : k ≠ k') :
    (find v x).getD k 0 ≠ (find v x).getD k' 0 := by
  have hpw := (List.pairwise_iff_get).mp (find_pairwise v x)
  rw [getD_eq_get _ _ _ hk, getD_eq_get _ _ _ hk']
  rcases Nat.lt_or_ge k k' with hlt | hge
  · exact Nat.ne_of_lt (hpw ⟨k, hk⟩ ⟨k', hk'⟩ hlt)
  · have hlt' : k' < k := by omega
    exact (Nat.ne_of_lt (hpw ⟨k', hk'⟩ ⟨k, hk⟩ hlt')).symm

/-- Reading any of the four positions written with the same value. -/
theorem chain4_written (lb : List XR) (s0 s1 s2 s3 s : Nat) (d : XR)
    (hs : s < lb.length) (hor : s = s0 ∨ s = s1 ∨ s = s2 ∨ s = s3) :
    ((((lb.set s0 (XR.fin 0)).set s3 (XR.fin 0)).set s1 (XR.fin 0)).set s2
      (XR.fin 0)).getD s d = XR.fin 0 := by
  by_cases e2 : s2 = s
  · rw [e2]; exact getD_set_self _ _ _ _ (by simpa using hs)
  · rw [getD_set_ne _ _ _ _ _ e2]
    by_cases e1 : s1 = s
    · rw [e1]; exact getD_set_self _ _ _ _ (by simpa using hs)
    · rw [getD_set_ne _ _ _ _ _ e1]
      by_cases e3 : s3 = s
      · rw [e3]; exact getD_set_self _ _ _ _ (by simpa using hs)
      · rw [getD_set_ne _ _ _ _ _ e3]
        by_cases e0 : s0 = s
        · rw [e0]; exact getD_set_self _ _ _ _ hs
        · rcases hor with h | h | h | h <;> omega

/-- Reading around the four written positions. -/
theorem chain4_skip (lb : List XR) (s0 s1 s2 s3 s : Nat) (d : XR)
    (h0 : s0 ≠ s) (h1 : s1 ≠ s) (h2 : s2 ≠ s) (h3 : s3 ≠ s) :
    ((((lb.set s0 (XR.fin 0)).set s3 (XR.fin 0)).set s1 (XR.fin 0)).set s2
      (XR.fin 0)).getD s d = lb.getD s d := by
  rw [getD_set_ne _ _ _ _ _ h2, getD_set_ne _ _ _ _ _ h1,
    getD_set_ne _ _ _ _ _ h3, getD_set_ne _ _ _ _ _ h0]

/-- Reading either of the two positions written with the same value. -/
theorem chain2_written (ub : List XR) (s0 s3 s : Nat) (d : XR)
    (hs : s < ub.length) (hor : s = s0 ∨ s = s3) :
    ((ub.set s0 (XR.fin 0)).set s3 (XR.fin 0)).getD s d = XR.fin 0 := by
  by_cases e3 : s3 = s
  · rw [e3]; exact getD_set_self _ _ _ _ (by simpa using hs)
  · rw [getD_set_ne _ _ _ _ _ e3]
    by_cases e0 : s0 = s
    · rw [e0]; exact getD_set_self _ _ _ _ hs
    · rcases hor with h | h <;> omega

/-- Reading around the two written positions. -/
theorem chain2_skip (ub : List XR) (s0 s3 s : Nat) (d : XR)
    (h0 : s0 ≠ s) (h3 : s3 ≠ s) :
    ((ub.set s0 (XR.fin 0)).set s3 (XR.fin 0)).getD s d = ub.getD s d := by
  rw [getD_set_ne _ _ _ _ _ h3, getD_set_ne _ _ _ _ _ h0]

/-- Frame property of the GRAPH_CUT constraint loop: types with a
different id never touch the slots of id t. -/
theorem ipoLoop_frame (wmap : List Int) (t : Int) :
    ∀ (ts : List FactorType) (lb ub lb' ub' : List XR),
      (∀ f ∈ ts, f.type_id ≠ t) →
      ipoLoop ts wmap lb ub = some (lb', ub') →
      ∀ i ∈ find wmap t, ∀ d,
        lb'.getD i d = lb.getD i d ∧ ub'.getD i d = ub.getD i d := by
  intro ts
  induction ts with
  | nil =>
    intro lb ub lb' ub' hne h i hi d
    have h1 := Option.some.inj h
    injection h1 with h2 h3
    exact ⟨by rw [← h2], by rw [← h3]⟩
  | cons f rest ih =>
    intro lb ub lb' ub' hne h i hi d
    simp only [ipoLoop] at h
    have hfne : f.type_id ≠ t := hne f (by simp)
    have hrest : ∀ g ∈ rest, g.type_id ≠ t := fun g hg => hne g (by simp [hg])
    by_cases hcard : f.card = [2, 2]
    · rw [if_pos hcard] at h
      by_cases hw4 : f.get_w_dim = 4
      · rw [if_pos hw4] at h
        by_cases hfm : (find wmap f.type_id).length = f.w.length
        · rw [if_pos hfm] at h
          have hw4' : f.w.length = 4 := hw4
          have hslot : ∀ k, k < 4 → (find wmap f.type_id).getD k 0 ≠ i := by
            intro k hk heq
            have hm : (find wmap f.type_id).getD k 0 ∈ find wmap f.type_id :=
              getD_mem _ _ _ (by rw [hfm, hw4']; exact hk)
            rw [heq] at hm
            exact find_disjoint wmap f.type_id t i hfne hm hi
          obtain ⟨h1, h2⟩ := ih _ _ _ _ hrest h i hi d
          constructor
          · rw [h1, chain4_skip lb _ _ _ _ i d (hslot 0 (by omega))
              (hslot 1 (by omega)) (hslot 2 (by omega)) (hslot 3 (by omega))]
          · rw [h2, chain2_skip ub _ _ i d (hslot 0 (by omega))
              (hslot 3 (by omega))]
        · rw [if_neg hfm] at h; exact absurd h (by simp)
      · rw [if_neg hw4] at h; exact absurd h (by simp)
    · rw [if_neg hcard] at h
      exact ih _ _ _ _ hrest h i hi d

/-- Main property of the GRAPH_CUT constraint loop: a registered
pairwise binary type must have weight dimension 4, and after a
successful pass its first and fourth slots are pinned to 0 in both
bounds while its second and third slots are written only in lb. -/
theorem ipoLoop_main (wmap : List Int) :
    ∀ (ts : List FactorType) (lb ub lb' ub' : List XR) (ft : FactorType),
      (ts.map FactorType.type_id).Nodup →
      ft ∈ ts → ft.card = [2, 2] →
      wmap.length ≤ lb.length → wmap.length ≤ ub.length →
      ipoLoop ts wmap lb ub = some (lb', ub') →
      ft.get_w_dim = 4 ∧ (find wmap ft.type_id).length = 4 ∧
      ∀ d, lb'.getD ((find wmap ft.type_id).getD 0 0) d = XR.fin 0 ∧
        lb'.getD ((find wmap ft.type_id).getD 1 0) d = XR.fin 0 ∧
        lb'.getD ((find wmap ft.type_id).getD 2 0) d = XR.fin 0 ∧
        lb'.getD ((find wmap ft.type_id).getD 3 0) d = XR.fin 0 ∧
        ub'.getD ((find wmap ft.type_id).getD 0 0) d = XR.fin 0 ∧
        ub'.getD ((find wmap ft.type_id).getD 3 0) d = XR.fin 0 ∧
        ub'.getD ((find wmap ft.type_id).getD 1 0) d
          = ub.getD ((find wmap ft.type_id).getD 1 0) d ∧
        ub'.getD ((find wmap ft.type_id).getD 2 0) d
          = ub.getD ((find wmap ft.type_id).getD 2 0) d := by
  intro ts
  induction ts with
  | nil =>
    intro lb ub lb' ub' ft _ hmem
    simp at hmem
  | cons f rest ih =>
    intro lb ub lb' ub' ft hnodup hmem hcard hlb hub h
    simp only [ipoLoop] at h
    simp only [List.map_cons, List.nodup_cons] at hnodup
    rcases List.mem_cons.mp hmem with hf | hrest_mem
    · subst hf
      rw [if_pos hcard] at h
      by_cases hw4 : ft.get_w_dim = 4
      · rw [if_pos hw4] at h
        by_cases hfm : (find wmap ft.type_id).length = ft.w.length
        · rw [if_pos hfm] at h
          have hw4' : ft.w.length = 4 := hw4
          have hlen4 : (find wmap ft.type_id).length = 4 := by rw [hfm, hw4']
          refine ⟨hw4, hlen4, ?_⟩
          intro d
          have hne : ∀ g ∈ rest, g.type_id ≠ ft.type_id := by
            intro g hg heq
            exact hnodup.1 (heq ▸ List.mem_map_of_mem FactorType.type_id hg)
          have hsm : ∀ k, k < 4 →
              (find wmap ft.type_id).getD k 0 ∈ find wmap ft.type_id :=
            fun k hk => getD_mem _ _ _ (by rw [hlen4]; exact hk)
          have hslb : ∀ k, k < 4 → (find wmap ft.type_id).getD k 0 < lb.length :=
            fun k hk => lt_of_lt_of_le (find_lt _ _ _ (hsm k hk)) hlb
          have hsub : ∀ k, k < 4 → (find wmap ft.type_id).getD k 0 < ub.length :=
            fun k hk => lt_of_lt_of_le (find_lt _ _ _ (hsm k hk)) hub
          have hsne : ∀ k k', k < 4 → k' < 4 → k ≠ k' →
              (find wmap ft.type_id).getD k 0 ≠ (find wmap ft.type_id).getD k' 0 :=
            fun k k' hk hk' hkk => find_getD_ne wmap ft.type_id k k'
              (by rw [hlen4]; exact hk) (by rw [hlen4]; exact hk') hkk
          have hframe := ipoLoop_frame wmap ft.type_id rest _ _ lb' ub' hne h
          refine ⟨?_, ?_, ?_, ?_, ?_, ?_, ?_, ?_⟩
          · rw [(hframe _ (hsm 0 (by omega)) d).1,
              chain4_written lb _ _ _ _ _ d (hslb 0 (by omega)) (by tauto)]
          · rw [(hframe _ (hsm 1 (by omega)) d).1,
              chain4_written lb _ _ _ _ _ d (hslb 1 (by omega)) (by tauto)]
          · rw [(hframe _ (hsm 2 (by omega)) d).1,
              chain4_written lb _ _ _ _ _ d (hslb 2 (by omega)) (by tauto)]
          · rw [(hframe _ (hsm 3 (by omega)) d).1,
              chain4_written lb _ _ _ _ _ d (hslb 3 (by omega)) (by tauto)]
          · rw [(hframe _ (hsm 0 (by omega)) d).2,
              chain2_written ub _ _ _ d (hsub 0 (by omega)) (by tauto)]
          · rw [(hframe _ (hsm 3 (by omega)) d).2,
              chain2_written ub _ _ _ d (hsub 3 (by omega)) (by tauto)]
          · rw [(hframe _ (hsm 1 (by omega)) d).2,
              chain2_skip ub _ _ _ d (hsne 0 1 (by omega) (by omega) (by omega))
                (hsne 3 1 (by omega) (by omega) (by omega))]
          · rw [(hframe _ (hsm 2 (by omega)) d).2,
              chain2_skip ub _ _ _ d (hsne 0 2 (by omega) (by omega) (by omega))
                (hsne 3 2 (by omega) (by omega) (by omega))]
        · rw [if_neg hfm] at h; exact absurd h (by simp)
      · rw [if_neg hw4] at h; exact absurd h (by simp)
    · have hftne : f.type_id ≠ ft.type_id := by
        intro heq
        exact hnodup.1 (heq ▸ List.mem_map_of_mem FactorType.type_id hrest_mem)
      by_cases hcardf : f.card = [2, 2]
      · rw [if_pos hcardf] at h
        by_cases hw4 : f.get_w_dim = 4
        · rw [if_pos hw4] at h
          by_cases hfm : (find wmap f.type_id).length = f.w.length
          · rw [if_pos hfm] at h
            have hw4' : f.w.length = 4 := hw4
            obtain ⟨hW, hL4, hvals⟩ :=
              ih _ _ lb' ub' ft hnodup.2 hrest_mem hcard
                (by simpa using hlb) (by simpa using hub) h
            refine ⟨hW, hL4, ?_⟩
            intro d
            obtain ⟨v0, v1, v2, v3, u0, u3, u1, u2⟩ := hvals d
            have hskip : ∀ k, k < 4 →
                (find wmap f.type_id).getD 0 0 ≠ (find wmap ft.type_id).getD k 0 ∧
                (find wmap f.type_id).getD 3 0 ≠ (find wmap ft.type_id).getD k 0 := by
              intro k hk
              have hmem_ft : (find wmap ft.type_id).getD k 0 ∈ find wmap ft.type_id :=
                getD_mem _ _ _ (by rw [hL4]; exact hk)
              constructor
              · intro heq
                have hm0 : (find wmap f.type_id).getD 0 0 ∈ find wmap f.type_id :=
                  getD_mem _ _ _ (by rw [hfm, hw4']; omega)
                rw [heq] at hm0
                exact find_disjoint wmap f.type_id ft.type_id _ hftne hm0 hmem_ft
              · intro heq
                have hm3 : (find wmap f.type_id).getD 3 0 ∈ find wmap f.type_id :=
                  getD_mem _ _ _ (by rw [hfm, hw4']; omega)
                rw [heq] at hm3
                exact find_disjoint wmap f.type_id ft.type_id _ hftne hm3 hmem_ft
            refine ⟨v0, v1, v2, v3, u0, u3, ?_, ?_⟩
            · rw [u1, chain2_skip ub _ _ _ d (hskip 1 (by omega)).1
                (hskip 1 (by omega)).2]
            · rw [u2, chain2_skip ub _ _ _ d (hskip 2 (by omega)).1
                (hskip 2 (by omega)).2]
          · rw [if_neg hfm] at h; exact absurd h (by simp)
        · rw [if_neg hw4] at h; exact absurd h (by simp)
      · rw [if_neg hcardf] at h
        exact ih _ _ lb' ub' ft hnodup.2 hrest_mem hcard hlb hub h

/-- A pairwise binary type whose weight dimension is not 4 makes the
GRAPH_CUT loop fail. -/
theorem ipoLoop_none (wmap : List Int) :
    ∀ (ts : List FactorType) (lb ub : List XR),
      (∃ ft ∈ ts, ft.card = [2, 2] ∧ ft.get_w_dim ≠ 4) →
      ipoLoop ts wmap lb ub = none := by
  intro ts
  induction ts with
  | nil => intro lb ub h; simp at h
  | cons f rest ih =>
    intro lb ub h
    obtain ⟨ft, hmem, hcard, hw4⟩ := h
    simp only [ipoLoop]
    rcases List.mem_cons.mp hmem with hf | hrest_mem
    · subst hf
      rw [if_pos hcard, if_neg hw4]
    · by_cases hcardf : f.card = [2, 2]
      · rw [if_pos hcardf]
        by_cases hw4f : f.get_w_dim = 4
        · rw [if_pos hw4f]
          by_cases hfm : (find wmap f.type_id).length = f.w.length
          · rw [if_pos hfm]
            exact ih _ _ ⟨ft, hrest_mem, hcard, hw4⟩
          · rw [if_neg hfm]
        · rw [if_neg hw4f]
      · rw [if_neg hcardf]
        exact ih _ _ ⟨ft, hrest_mem, hcard, hw4⟩

/-- C4 counterexample: in a non-GRAPH_CUT mode init_primal_opt leaves
the caller's lb and ub exactly as passed in (here a single finite entry),
so the returned bounds are not the all-minus/plus-infinity vectors the
claim describes. -/
theorem init_primal_opt_cex :
    init_primal_opt mEmpty 1 [XR.fin 5] [XR.fin 5]
      = some (identityMat (get_dim mEmpty) 1, [XR.fin 5], [XR.fin 5]) ∧
    ¬ (∀ e ∈ [XR.fin 5], e = XR.ninf) ∧
    ¬ (∀ e ∈ [XR.fin 5], e = XR.pinf) := by decide

/-- C4 amended: init_primal_opt always returns C = identity of size
dimension() scaled by the regularization; in every mode other than
GRAPH_CUT it returns lb and ub unchanged (adding no constraints, rather
than filling them with infinities); under GRAPH_CUT it resizes the
bounds to the dimension, fills them with minus/plus infinity, requires
w_dim = 4 of every pairwise binary factor type (failing otherwise), and
pins that type's slots 0 and 3 (lb = ub = 0) while lower-bounding its
slots 1 and 2 (lb = 0, ub = +infinity). -/
theorem init_primal_opt_spec (m : CFactorGraphModel) (reg : Rat)
    (lb ub : List XR) :
    (m.inf_type ≠ EMAPInferType.GRAPH_CUT →
      init_primal_opt m reg lb ub = some (identityMat (get_dim m) reg, lb, ub)) ∧
    (∀ C lb' ub', init_primal_opt m reg lb ub = some (C, lb', ub') →
      C = identityMat (get_dim m) reg) ∧
    (m.inf_type = EMAPInferType.GRAPH_CUT →
      (m.factor_types.map FactorType.type_id).Nodup →
      ∀ ft ∈ m.factor_types, ft.card = [2, 2] →
      ∀ C lb' ub', init_primal_opt m reg lb ub = some (C, lb', ub') →
      ft.get_w_dim = 4 ∧
      ∀ d, lb'.getD ((find m.w_map ft.type_id).getD 0 0) d = XR.fin 0 ∧
        ub'.getD ((find m.w_map ft.type_id).getD 0 0) d = XR.fin 0 ∧
        lb'.getD ((find m.w_map ft.type_id).getD 3 0) d = XR.fin 0 ∧
        ub'.getD ((find m.w_map ft.type_id).getD 3 0) d = XR.fin 0 ∧
        lb'.getD ((find m.w_map ft.type_id).getD 1 0) d = XR.fin 0 ∧
        ub'.getD ((find m.w_map ft.type_id).getD 1 0) d = XR.pinf ∧
        lb'.getD ((find m.w_map ft.type_id).getD 2 0) d = XR.fin 0 ∧
        ub'.getD ((find m.w_map ft.type_id).getD 2 0) d = XR.pinf) ∧
    (m.inf_type = EMAPInferType.GRAPH_CUT →
      (∃ ft ∈ m.factor_types, ft.card = [2, 2] ∧ ft.get_w_dim ≠ 4) →
      init_primal_opt m reg lb ub = none) := by
  refine ⟨?_, ?_, ?_, ?_⟩
  · intro hne
    unfold init_primal_opt
    cases hm : m.inf_type with
    | GRAPH_CUT => exact absurd hm hne
    | TREE_MAX_PROD => rfl
    | LOOPY_MAX_PROD => rfl
    | LP_RELAXATION => rfl
    | TRWS_MAX_PROD => rfl
    | GEMPLP => rfl
  · intro C lb' ub' h
    unfold init_primal_opt at h
    cases hm : m.inf_type with
    | GRAPH_CUT =>
      rw [hm] at h
      simp only [] at h
      cases hI : ipoLoop m.factor_types m.w_map
          (List.replicate (get_dim m) XR.ninf)
          (List.replicate (get_dim m) XR.pinf) with
      | none => rw [hI] at h; simp at h
      | some p =>
        rw [hI] at h
        simp only [Option.map_some'] at h
        have h1 := Option.some.inj h
        injection h1 with hC h2
        exact hC.symm
    | TREE_MAX_PROD =>
      rw [hm] at h
      simp only [] at h
      have h1 := Option.some.inj h
      injection h1 with hC h2
      exact hC.symm
    | LOOPY_MAX_PROD =>
      rw [hm] at h
      simp only [] at h
      have h1 := Option.some.inj h
      injection h1 with hC h2
      exact hC.symm
    | LP_RELAXATION =>
      rw [hm] at h
      simp only [] at h
      have h1 := Option.some.inj h
      injection h1 with hC h2
      exact hC.symm
    | TRWS_MAX_PROD =>
      rw [hm] at h
      simp only [] at h
      have h1 := Option.some.inj h
      injection h1 with hC h2
      exact hC.symm
    | GEMPLP =>
      rw [hm] at h
      simp only [] at h
      have h1 := Option.some.inj h
      injection h1 with hC h2
      exact hC.symm
  · intro hm hnodup ft hmem hcard C lb' ub' h
    unfold init_primal_opt at h
    rw [hm] at h
    simp only [] at h
    cases hI : ipoLoop m.factor_types m.w_map
        (List.replicate (get_dim m) XR.ninf)
        (List.replicate (get_dim m) XR.pinf) with
    | none => rw [hI] at h; simp at h
    | some p =>
      rw [hI] at h
      simp only [Option.map_some'] at h
      have h1 := Option.some.inj h
      injection h1 with hC h2
      injection h2 with hLB hUB
      obtain ⟨hW, hL4, hvals⟩ := ipoLoop_main m.w_map m.factor_types
        (List.replicate (get_dim m) XR.ninf)
        (List.replicate (get_dim m) XR.pinf) p.1 p.2 ft hnodup hmem hcard
        (by simp [get_dim]) (by simp [get_dim]) (by rw [hI])
      subst hLB
      subst hUB
      refine ⟨hW, ?_⟩
      intro d
      obtain ⟨v0, v1, v2, v3, u0, u3, u1, u2⟩ := hvals d
      have hslt : ∀ k, k < 4 →
          (find m.w_map ft.type_id).getD k 0 < get_dim m := by
        intro k hk
        exact find_lt m.w_map ft.type_id _
          (getD_mem _ _ _ (by rw [hL4]; exact hk))
      refine ⟨v0, u0, v3, u3, v1, ?_, v2, ?_⟩
      · rw [u1, getD_replicate _ _ _ _ (hslt 1 (by omega))]
      · rw [u2, getD_replicate _ _ _ _ (hslt 2 (by omega))]
  · intro hm hex
    unfold init_primal_opt
    rw [hm]
    simp only []
    rw [ipoLoop_none m.w_map m.factor_types _ _ hex]
    rfl

/-- Witness for C4 amended on the GRAPH_CUT model owning the pairwise
binary type ftP mapped to slots 0..3. -/
theorem init_primal_opt_spec_witness :
    ftP.get_w_dim = 4 ∧
    ∀ d, ([XR.fin 0, XR.fin 0, XR.fin 0, XR.fin 0] : List XR).getD
        ((find mP.w_map ftP.type_id).getD 0 0) d = XR.fin 0 ∧
      ([XR.fin 0, XR.pinf, XR.pinf, XR.fin 0] : List XR).getD
        ((find mP.w_map ftP.type_id).getD 0 0) d = XR.fin 0 ∧
      ([XR.fin 0, XR.fin 0, XR.fin 0, XR.fin 0] : List XR).getD
        ((find mP.w_map ftP.type_id).getD 3 0) d = XR.fin 0 ∧
      ([XR.fin 0, XR.pinf, XR.pinf, XR.fin 0] : List XR).getD
        ((find mP.w_map ftP.type_id).getD 3 0) d = XR.fin 0 ∧
      ([XR.fin 0, XR.fin 0, XR.fin 0, XR.fin 0] : List XR).getD
        ((find mP.w_map ftP.type_id).getD 1 0) d = XR.fin 0 ∧
      ([XR.fin 0, XR.pinf, XR.pinf, XR.fin 0] : List XR).getD
        ((find mP.w_map ftP.type_id).getD 1 0) d = XR.pinf ∧
      ([XR.fin 0, XR.fin 0, XR.fin 0, XR.fin 0] : List XR).getD
        ((find mP.w_map ftP.type_id).getD 2 0) d = XR.fin 0 ∧
      ([XR.fin 0, XR.pinf, XR.pinf, XR.fin 0] : List XR).getD
        ((find mP.w_map ftP.type_id).getD 2 0) d = XR.pinf :=
  (init_primal_opt_spec mP 2 [] []).2.2.1 rfl (by decide) ftP (by decide)
    (by decide) (identityMat (get_dim mP) 2)
    [XR.fin 0, XR.fin 0, XR.fin 0, XR.fin 0]
    [XR.fin 0, XR.pinf, XR.pinf, XR.fin 0] (by decide)

end Claims

end FGM

